import Mathlib

/-!
Shallow embedding of `src/index.js` of jksv-ftp-sync and proofs about it.

JavaScript snapshot values (nested plain objects whose leaves are the
strings `"file"` and `"deleted"`) are embedded as the mutually inductive
types `Val` / `Fields`.  `Fields` is an insertion-ordered association list,
matching the enumeration order of string-keyed JS objects; property read,
property write and `for … in` enumeration are modelled by `lookupF`,
`setF` and structural recursion over `Fields`.

The recursive functions of the source recurse through values obtained by
property lookup, which is not structural; they are embedded with an
explicit fuel parameter.  One unit of fuel is spent per recursion level,
and `odepth cur + 1` fuel provably suffices because every recursive call
descends into a nested object of `cur`, so the fuelled function computes
exactly the JS recursion on all (finite) JS values.
-/

mutual
inductive Val where
  | str (s : String)
  | obj (fields : Fields)
deriving Repr
inductive Fields where
  | nil
  | fcons (k : String) (v : Val) (rest : Fields)
deriving Repr
end

/-- Property read `o[k]`: first binding of `k`, if any (JS objects never
hold a key twice, so first-match lookup agrees with JS on all inputs that
denote JS objects). -/
def lookupF : Fields → String → Option Val
  | .nil, _ => none
  | .fcons k v rest, key => if k = key then some v else lookupF rest key

/-- Property write `o[k] = v`: overwrite the existing binding in place,
else append a new binding at the end, as JS insertion order does. -/
def setF : Fields → String → Val → Fields
  | .nil, key, v => .fcons key v .nil
  | .fcons k w rest, key, v =>
    if k = key then .fcons k v rest else .fcons k w (setF rest key v)

/-- Enumeration order of the keys of an object. -/
def keys : Fields → List String
  | .nil => []
  | .fcons k _ rest => k :: keys rest

mutual
/-- Nesting depth of a value: strings are flat, an object is one deeper
than its deepest member. -/
def vdepth : Val → Nat
  | .str _ => 0
  | .obj fs => 1 + odepth fs
/-- Nesting depth of an object's field list. -/
def odepth : Fields → Nat
  | .nil => 0
  | .fcons _ v rest => max (vdepth v) (odepth rest)
end

mutual
/-- No value anywhere in the tree is the marker string `"deleted"`. -/
def noDeletedV : Val → Bool
  | .str s => s != "deleted"
  | .obj fs => noDeletedO fs
/-- Field-list form of `noDeletedV`. -/
def noDeletedO : Fields → Bool
  | .nil => true
  | .fcons _ v rest => noDeletedV v && noDeletedO rest
end

mutual
/-- The value is a snapshot as produced by `listLocalFiles`: every leaf is
the literal `"file"`, and keys are unique at every level (JS objects never
repeat a key). -/
def treeSnapV : Val → Bool
  | .str s => s == "file"
  | .obj fs => treeSnapO fs
/-- Field-list form of `treeSnapV`. -/
def treeSnapO : Fields → Bool
  | .nil => true
  | .fcons k v rest => !((keys rest).contains k) && treeSnapV v && treeSnapO rest
end

/-- Key lists without repetition. -/
def nodupKeysL : List String → Bool
  | [] => true
  | k :: ks => !(ks.contains k) && nodupKeysL ks

/-- A key as produced by a directory listing: nonempty and without a path
separator. -/
def goodKey (k : String) : Bool :=
  !(k == "") && !(k.data.contains '/')

/-- All keys in the list are directory-entry names. -/
def goodKeysL : List String → Bool
  | [] => true
  | k :: ks => goodKey k && goodKeysL ks

/-- Embedding of `path.join` for the slash-joined relative paths built by
`getDeletedFiles` and the transfer walks (`path.join("", k) = k`,
otherwise `base + "/" + k`; the inputs are plain entry names, so no
normalisation applies). -/
def pathJoin (base k : String) : String :=
  if base = "" then k else base ++ "/" ++ k

/-- JS truthiness coercion `previousState?.[key] || {}` of line 129: a
missing property and the falsy string `""` give `{}`; every other value
passes through. -/
def jsOr (v : Option Val) : Val :=
  match v with
  | some (.str "") => .obj .nil
  | some v => v
  | none => .obj .nil

/-- Spreading or enumerating a JS string via `{...s}` / `for … in s`
yields its character-index properties `"0" ↦ s[0], …`; this arises in
`markDeletedFiles` only when line 128 passes a string as `previousState`
(file-to-directory type change). -/
def stringIndexFields (s : String) : Fields :=
  (s.toList.enum.map (fun p => (toString p.1, Val.str (String.mk [p.2])))).foldr
    (fun p acc => .fcons p.1 p.2 acc) .nil

/-- Field view of the first argument of `markDeletedFiles`: spreading and
enumerating an object gives its own fields, a string its index-character
properties. -/
def enumFields : Val → Fields
  | .obj fs => fs
  | .str s => stringIndexFields s

/-- First loop of `markDeletedFiles` (lines 114-123): for each key of
`previousState`, mark it `"deleted"` when absent from `currentState`,
recursively merge when both sides hold objects, otherwise leave
`newState` untouched. -/
def pass1 (rec : Val → Fields → Fields) (cur : Fields) : Fields → Fields → Fields
  | .nil, ns => ns
  | .fcons k pv rest, ns =>
    pass1 rec cur rest
      (match lookupF cur k with
       | none => setF ns k (.str "deleted")
       | some cv =>
         match pv, cv with
         | .obj po, .obj co => setF ns k (.obj (rec (.obj po) co))
         | _, _ => ns)

/-- Test `newState[key] !== "deleted"` of line 126, negated: the property
is present and is exactly the marker string `"deleted"`. -/
def isDeletedMarker : Option Val → Bool
  | some (.str s) => s == "deleted"
  | _ => false

/-- Second loop of `markDeletedFiles` (lines 125-136): for each key of
`currentState` whose entry in `newState` is not `"deleted"`, recursively
merge object values against `previousState?.[key] || {}` and record
string values as `"file"`. -/
def pass2 (rec : Val → Fields → Fields) (pf : Fields) : Fields → Fields → Fields
  | .nil, ns => ns
  | .fcons k cv rest, ns =>
    pass2 rec pf rest
      (if isDeletedMarker (lookupF ns k) then ns
       else
         match cv with
         | .obj co => setF ns k (.obj (rec (jsOr (lookupF pf k)) co))
         | .str _ => setF ns k (.str "file"))

/-- Fuelled embedding of `markDeletedFiles` (lines 111-139):
`newState = {...previousState}`, then the two loops.  The zero-fuel case
is unreachable for the fuel chosen in `markDeletedFiles` below. -/
def markDeletedFilesF : Nat → Val → Fields → Fields
  | 0, _, _ => .nil
  | fuel + 1, prev, cur =>
    let pf := enumFields prev
    pass2 (markDeletedFilesF fuel) pf cur (pass1 (markDeletedFilesF fuel) cur pf pf)

/-- Embedding of `markDeletedFiles(previousState, currentState)`: every
recursion level descends into an object nested in `currentState`, so
`odepth cur + 1` fuel always suffices (`markDeletedFilesF_congr` below
makes this precise). -/
def markDeletedFiles (prev : Val) (cur : Fields) : Fields :=
  markDeletedFilesF (odepth cur + 1) prev cur

mutual
/-- One entry of the `getDeletedFiles` loop (lines 145-154): a `"deleted"`
leaf contributes its joined path, an object value is recursed into, any
other string contributes nothing. -/
def getDeletedEntry : String → Val → String → List String
  | k, .str s, base => if s = "deleted" then [pathJoin base k] else []
  | k, .obj sub, base => getDeletedFiles sub (pathJoin base k)
/-- Embedding of `getDeletedFiles(fileState, basePath)` (lines 142-157),
flattening the `"deleted"` markers of a merged snapshot into slash-joined
relative paths in enumeration order. -/
def getDeletedFiles : Fields → String → List String
  | .nil, _ => []
  | .fcons k v rest, base => getDeletedEntry k v base ++ getDeletedFiles rest base
end

/-- Embedding of `loadFileState` (lines 78-84): the outcome of
`fs.readJson(config.db)` is passed in as an `Except`; a successful read
returns the parsed document and any read or parse failure is caught and
replaced by the empty snapshot `{}`. -/
def loadFileState (readResult : Except String Val) : Val :=
  match readResult with
  | .ok v => v
  | .error _ => .obj .nil

/-!
Transfer phases.  A directory tree (the remote tree as reported by
`client.list`, or the local tree as reported by `fs.readdir`/`fs.stat`)
is represented by the same `Fields` shape: a `.str` value is a file, a
`.obj` value is a subdirectory.  The local filesystem's existence set
(`fs.pathExists`) is a list of paths; `fs.ensureDir` and `client.downloadTo`
add the created path to it.
-/

mutual
/-- One item of the `downloadFiles` loop (lines 28-40): a directory is
created locally (`ensureLocalDirectory`) and recursed into; a file is
downloaded only when `fs.pathExists` is false for its local path.
Returns the local paths passed to `client.downloadTo` in order, and the
updated local existence set. -/
def downloadItem : String → Val → String → String → List String → List String × List String
  | name, .obj sub, remotePath, localPath, fs =>
    let localItemPath := pathJoin localPath name
    downloadFiles sub (pathJoin remotePath name) localItemPath (localItemPath :: fs)
  | name, .str _, _, localPath, fs =>
    let localItemPath := pathJoin localPath name
    if fs.contains localItemPath then ([], fs)
    else ([localItemPath], localItemPath :: fs)
/-- Embedding of `downloadFiles(client, remotePath, localPath)`
(lines 25-41) over the remote tree that `listFTPFiles` reports. -/
def downloadFiles : Fields → String → String → List String → List String × List String
  | .nil, _, _, fs => ([], fs)
  | .fcons name t rest, remotePath, localPath, fs =>
    let r₁ := downloadItem name t remotePath localPath fs
    let r₂ := downloadFiles rest remotePath localPath r₁.2
    (r₁.1 ++ r₂.1, r₂.2)
end

/-- JS truthiness of `existsRemotely` on line 67: `client.size` resolves
to a number or, on failure, to `null` (line 65); `null` and `0` are
falsy, every other number is truthy. -/
def jsTruthyNum (v : Option Int) : Bool :=
  match v with
  | none => false
  | some n => n != 0

mutual
/-- One item of the `uploadFiles` loop (lines 46-74): a directory is
ensured remotely (failure is caught and logged, line 52-59) and recursed
into; a file is uploaded when `!existsRemotely`.  Returns the remote
paths passed to `client.uploadFrom` in order. -/
def uploadItem (probe : String → Option Int) : String → Val → String → String → List String
  | name, .obj sub, localPath, remotePath =>
    uploadFiles probe sub (pathJoin localPath name) (pathJoin remotePath name)
  | name, .str _, _, remotePath =>
    let remoteItemPath := pathJoin remotePath name
    if jsTruthyNum (probe remoteItemPath) then [] else [remoteItemPath]
/-- Embedding of `uploadFiles(client, localPath, remotePath)`
(lines 43-75) over the local tree that `fs.readdir`/`fs.stat` reports;
`probe` is the `client.size(..).catch(() => null)` existence probe. -/
def uploadFiles (probe : String → Option Int) : Fields → String → String → List String
  | .nil, _, _ => []
  | .fcons name t rest, localPath, remotePath =>
    uploadItem probe name t localPath remotePath ++ uploadFiles probe rest localPath remotePath
end

/-!
Delete propagation.  The FTP client is an oracle giving the outcome of
each remote operation; `deleteFilesFromServers` turns every path into one
event, mirroring the per-path `try`/`catch` of lines 164-188.
-/

/-- One entry of a remote directory listing (`{name, isDirectory}`). -/
structure FItem where
  name : String
  isDirectory : Bool
deriving DecidableEq, Repr

/-- Outcomes of the remote operations used by `deleteFilesFromServers`. -/
structure FtpClient where
  list : String → Except String (List FItem)
  removeDir : String → Except String Unit
  remove : String → Except String Unit

/-- Simplified POSIX `path.dirname`: everything before the last slash
(`"."` when there is none).  The claims quantify over the client's
response to it, so its edge cases are not load-bearing. -/
def dirname (p : String) : String :=
  let parts := p.splitOn "/"
  if parts.length ≤ 1 then "." else String.intercalate "/" parts.dropLast

/-- Simplified POSIX `path.basename`: everything after the last slash. -/
def basename (p : String) : String :=
  ((p.splitOn "/").getLast?).getD p

/-- Remote target path of one deleted file: `path.join(remotePath, file)`
(the backslash replacement of line 162 is a no-op on slash-built paths). -/
def remoteTarget (remotePath file : String) : String :=
  pathJoin remotePath file

/-- Logged outcome of processing one deleted path. -/
inductive DelEvent where
  | skipped (p : String)
  | removedDir (p : String)
  | removedFile (p : String)
  | failed (p : String)
deriving DecidableEq, Repr

/-- Body of the per-path `try`/`catch` of lines 164-188: list the parent
directory, skip when the target name is absent, remove a directory
recursively or a file singly, and catch any error as a `failed` event. -/
def processDeletion (client : FtpClient) (remoteFilePath : String) : DelEvent :=
  match client.list (dirname remoteFilePath) with
  | .error _ => .failed remoteFilePath
  | .ok fileInfo =>
    match fileInfo.find? (fun item => item.name == basename remoteFilePath) with
    | none => .skipped remoteFilePath
    | some targetItem =>
      if targetItem.isDirectory then
        match client.removeDir remoteFilePath with
        | .ok _ => .removedDir remoteFilePath
        | .error _ => .failed remoteFilePath
      else
        match client.remove remoteFilePath with
        | .ok _ => .removedFile remoteFilePath
        | .error _ => .failed remoteFilePath

/-- Embedding of `deleteFilesFromServers(client, remotePath, deletedFiles)`
(lines 160-190): every path of the list produces exactly one event, in
order; a failure on one path never stops the loop. -/
def deleteFilesFromServers (client : FtpClient) (remotePath : String) :
    List String → List DelEvent
  | [] => []
  | file :: rest =>
    processDeletion client (remoteTarget remotePath file) ::
      deleteFilesFromServers client remotePath rest

/-!
Orchestrator (`monitorAndSync`, lines 192-290).  One polling cycle is
modelled by the reconciliation events it emits: the connection step fixes
each configured server's probe outcome (`online`), the global
`shouldSync` test decides whether this cycle reconciles at all, and the
three phase loops of lines 242-270 visit every online server in order.
`serverStates` is the process-wide connectivity record, updated for every
server at cycle end (line 284).
-/

/-- One configured server after the connection step of lines 198-219. -/
structure Server where
  address : String
  folder : String
  online : Bool
deriving DecidableEq, Repr

/-- Read of the connectivity record `serverStates[address]`. -/
def lookupB : List (String × Bool) → String → Option Bool
  | [], _ => none
  | (k, b) :: rest, key => if k = key then some b else lookupB rest key

/-- Write of the connectivity record `serverStates[address] = online`. -/
def setB : List (String × Bool) → String → Bool → List (String × Bool)
  | [], key, b => [(key, b)]
  | (k, c) :: rest, key, b =>
    if k = key then (k, b) :: rest else (k, c) :: setB rest key b

/-- Line 223: `!previousState && server.online` — the store's last
recorded reachability is absent or false, and this cycle's probe is true. -/
def transitioned (states : List (String × Bool)) (s : Server) : Bool :=
  !((lookupB states s.address).getD false) && s.online

/-- Lines 221-224: reconcile this cycle iff some configured server just
transitioned offline-to-online. -/
def shouldSync (states : List (String × Bool)) (servers : List Server) : Bool :=
  servers.any (transitioned states)

/-- The three reconciliation phases, in source order. -/
inductive Phase where
  | delete
  | download
  | upload
deriving DecidableEq, Repr

/-- Position of a phase's loop in `monitorAndSync`. -/
def phaseRank : Phase → Nat
  | .delete => 0
  | .download => 1
  | .upload => 2

/-- One phase loop (lines 243-250, 253-260 or 263-270): visit the
configured servers in order and emit the phase for each online one. -/
def phasePass (ph : Phase) : List Server → List (Phase × String)
  | [] => []
  | s :: rest =>
    (if s.online then [(ph, s.address)] else []) ++ phasePass ph rest

/-- Reconciliation events of one cycle: nothing when no server
transitioned, else all deletions, then all downloads, then all uploads,
each across every online server (lines 226-270). -/
def cycleEvents (states : List (String × Bool)) (servers : List Server) :
    List (Phase × String) :=
  if shouldSync states servers then
    phasePass .delete servers ++ phasePass .download servers ++ phasePass .upload servers
  else []

/-- End-of-cycle connectivity update (lines 283-286): record every
server's probe outcome unconditionally. -/
def updateStates (states : List (String × Bool)) (servers : List Server) :
    List (String × Bool) :=
  servers.foldl (fun st s => setB st s.address s.online) states

/-- Entry membership in a field list (a specific key-value binding occurs
somewhere in the list). -/
def memF (k : String) (v : Val) : Fields → Prop
  | .nil => False
  | .fcons k₁ v₁ rest => (k = k₁ ∧ v = v₁) ∨ memF k v rest

/-!
Association-list lemmas for the JS object model.
-/

theorem lookupF_setF : (o : Fields) → (k key : String) → (v : Val) →
    lookupF (setF o k v) key = if k = key then some v else lookupF o key
  | .nil, k, key, v => by simp [setF, lookupF]
  | .fcons k₁ w rest, k, key, v => by
    by_cases h₁ : k₁ = k
    · subst h₁
      simp only [setF, if_pos rfl, lookupF]
      by_cases h₂ : k₁ = key <;> simp [h₂]
    · simp only [setF, if_neg h₁, lookupF]
      by_cases h₂ : k₁ = key
      · have hk : ¬(k = key) := fun h => h₁ (h₂ ▸ h.symm)
        simp [h₂, hk]
      · simp [h₂, lookupF_setF rest k key v]

theorem setF_lookup_self : (o : Fields) → (k : String) → (v : Val) →
    lookupF o k = some v → setF o k v = o
  | .nil, k, v, h => by simp [lookupF] at h
  | .fcons k₁ w rest, k, v, h => by
    by_cases h₁ : k₁ = k
    · subst h₁
      have hw : w = v := by simpa [lookupF] using h
      subst hw
      simp [setF]
    · simp only [lookupF, if_neg h₁] at h
      simp [setF, h₁, setF_lookup_self rest k v h]

theorem keys_setF : (o : Fields) → (k : String) → (v : Val) →
    keys (setF o k v) = if (keys o).contains k then keys o else keys o ++ [k]
  | .nil, k, v => by simp [setF, keys]
  | .fcons k₁ w rest, k, v => by
    by_cases h₁ : k₁ = k
    · subst h₁
      simp [setF, keys, List.contains_cons]
    · have hne : (k == k₁) = false := by
        simp only [beq_eq_false_iff_ne, ne_eq]
        exact fun h => h₁ h.symm
      have hne' : (k₁ == k) = false := by
        simp only [beq_eq_false_iff_ne, ne_eq]
        exact h₁
      simp only [setF, if_neg h₁, keys, keys_setF rest k v, List.contains_cons, hne, hne',
        Bool.false_or, Bool.or_false]
      by_cases h₂ : k ∈ keys rest <;> simp [h₂]

theorem mem_keys_of_lookupF : (o : Fields) → (key : String) → (v : Val) →
    lookupF o key = some v → key ∈ keys o
  | .nil, key, v, h => by simp [lookupF] at h
  | .fcons k₁ w rest, key, v, h => by
    by_cases h₁ : k₁ = key
    · simp [keys, h₁]
    · simp only [lookupF, if_neg h₁] at h
      simp [keys, mem_keys_of_lookupF rest key v h]

theorem lookupF_eq_none : (o : Fields) → (key : String) →
    lookupF o key = none ↔ key ∉ keys o
  | .nil, key => by simp [lookupF, keys]
  | .fcons k₁ w rest, key => by
    by_cases h₁ : k₁ = key
    · subst h₁
      simp [lookupF, keys]
    · simp only [lookupF, if_neg h₁, keys, List.mem_cons, not_or]
      rw [lookupF_eq_none rest key]
      have h₂ : ¬key = k₁ := fun h => h₁ h.symm
      tauto

theorem lookupF_depth : (o : Fields) → (key : String) → (v : Val) →
    lookupF o key = some v → vdepth v ≤ odepth o
  | .nil, key, v, h => by simp [lookupF] at h
  | .fcons k₁ w rest, key, v, h => by
    by_cases h₁ : k₁ = key
    · simp only [lookupF, if_pos h₁, Option.some.injEq] at h
      subst h
      simp [odepth]
    · simp only [lookupF, if_neg h₁] at h
      have := lookupF_depth rest key v h
      simp only [odepth]
      omega

theorem odepth_fcons_le (k : String) (v : Val) (rest : Fields) :
    odepth rest ≤ odepth (.fcons k v rest) := by
  simp [odepth]

theorem lookupF_suffix_step (k₀ : String) (pv₀ : Val) (rest c : Fields)
    (hnd : k₀ ∉ keys rest)
    (H : ∀ k v, lookupF (.fcons k₀ pv₀ rest) k = some v → lookupF c k = some v) :
    ∀ k v, lookupF rest k = some v → lookupF c k = some v := by
  intro k v h
  have hne : k₀ ≠ k := by
    intro he
    exact hnd (he ▸ mem_keys_of_lookupF rest k v h)
  exact H k v (by simp [lookupF, hne, h])

theorem not_mem_of_contains_eq_false {α} [BEq α] [LawfulBEq α] {l : List α} {a : α}
    (h : l.contains a = false) : a ∉ l := by
  simpa using h

theorem nodupKeysL_cons {k : String} {ks : List String} (h : nodupKeysL (k :: ks) = true) :
    k ∉ ks ∧ nodupKeysL ks = true := by
  simp only [nodupKeysL, Bool.and_eq_true, Bool.not_eq_true'] at h
  exact ⟨not_mem_of_contains_eq_false h.1, h.2⟩

theorem isDeletedMarker_iff (v : Option Val) :
    isDeletedMarker v = true ↔ v = some (.str "deleted") := by
  cases v with
  | none => simp [isDeletedMarker]
  | some w =>
    cases w with
    | str s => simp [isDeletedMarker]
    | obj fs => simp [isDeletedMarker]

/-!
Lookup and key behaviour of the two merge loops.  `pairs` is the portion
of the enumerated field list still to be visited and `ns` the `newState`
accumulator; all lemmas with a `nodupKeysL` hypothesis rely on JS objects
never repeating a key.
-/

theorem pass1_lookupF_none : (pairs : Fields) → {rec : Val → Fields → Fields} →
    (cur ns : Fields) → (key : String) → lookupF pairs key = none →
    lookupF (pass1 rec cur pairs ns) key = lookupF ns key
  | .nil, _, cur, ns, key, _ => by simp [pass1]
  | .fcons k pv rest, rec, cur, ns, key, h => by
    have hne : ¬k = key := fun he => by simp [lookupF, he] at h
    have hrest : lookupF rest key = none := by simpa [lookupF, hne] using h
    simp only [pass1]
    rw [pass1_lookupF_none rest cur _ key hrest]
    cases hcur : lookupF cur k with
    | none => simp [lookupF_setF, hne]
    | some cv => cases pv <;> cases cv <;> simp [lookupF_setF, hne]

theorem pass1_lookupF_deleted : (pairs : Fields) → {rec : Val → Fields → Fields} →
    (cur ns : Fields) → (key : String) → (pv : Val) →
    nodupKeysL (keys pairs) = true → lookupF pairs key = some pv →
    lookupF cur key = none →
    lookupF (pass1 rec cur pairs ns) key = some (.str "deleted")
  | .nil, _, cur, ns, key, pv, _, hp, _ => by simp [lookupF] at hp
  | .fcons k pv₀ rest, rec, cur, ns, key, pv, hnd, hp, hc => by
    obtain ⟨hk, hnd'⟩ := nodupKeysL_cons (by simpa [keys] using hnd)
    by_cases he : k = key
    · subst he
      have hrest : lookupF rest k = none := (lookupF_eq_none rest k).2 hk
      simp only [pass1, hc]
      rw [pass1_lookupF_none rest cur _ k hrest]
      simp [lookupF_setF]
    · have hp' : lookupF rest key = some pv := by simpa [lookupF, he] using hp
      simp only [pass1]
      exact pass1_lookupF_deleted rest cur _ key pv hnd' hp' hc

theorem pass1_lookupF_rec : (pairs : Fields) → {rec : Val → Fields → Fields} →
    (cur ns : Fields) → (key : String) → (po co : Fields) →
    nodupKeysL (keys pairs) = true → lookupF pairs key = some (.obj po) →
    lookupF cur key = some (.obj co) →
    lookupF (pass1 rec cur pairs ns) key = some (.obj (rec (.obj po) co))
  | .nil, _, cur, ns, key, po, co, _, hp, _ => by simp [lookupF] at hp
  | .fcons k pv₀ rest, rec, cur, ns, key, po, co, hnd, hp, hc => by
    obtain ⟨hk, hnd'⟩ := nodupKeysL_cons (by simpa [keys] using hnd)
    by_cases he : k = key
    · subst he
      have hpv : pv₀ = .obj po := by simpa [lookupF] using hp
      subst hpv
      have hrest : lookupF rest k = none := (lookupF_eq_none rest k).2 hk
      simp only [pass1, hc]
      rw [pass1_lookupF_none rest cur _ k hrest]
      simp [lookupF_setF]
    · have hp' : lookupF rest key = some (.obj po) := by simpa [lookupF, he] using hp
      simp only [pass1]
      exact pass1_lookupF_rec rest cur _ key po co hnd' hp' hc

theorem pass1_lookupF_strPrev : (pairs : Fields) → {rec : Val → Fields → Fields} →
    (cur ns : Fields) → (key : String) → (s : String) → (cv : Val) →
    nodupKeysL (keys pairs) = true → lookupF pairs key = some (.str s) →
    lookupF cur key = some cv →
    lookupF (pass1 rec cur pairs ns) key = lookupF ns key
  | .nil, _, cur, ns, key, s, cv, _, hp, _ => by simp [lookupF] at hp
  | .fcons k pv₀ rest, rec, cur, ns, key, s, cv, hnd, hp, hc => by
    obtain ⟨hk, hnd'⟩ := nodupKeysL_cons (by simpa [keys] using hnd)
    by_cases he : k = key
    · subst he
      have hpv : pv₀ = .str s := by simpa [lookupF] using hp
      subst hpv
      have hrest : lookupF rest k = none := (lookupF_eq_none rest k).2 hk
      simp only [pass1, hc]
      rw [pass1_lookupF_none rest cur _ k hrest]
    · have hp' : lookupF rest key = some (.str s) := by simpa [lookupF, he] using hp
      simp only [pass1]
      rw [pass1_lookupF_strPrev rest cur _ key s cv hnd' hp' hc]
      cases hcur : lookupF cur k with
      | none => simp [lookupF_setF, he]
      | some cv₁ => cases pv₀ <;> cases cv₁ <;> simp [lookupF_setF, he]

theorem pass1_lookupF_strCur : (pairs : Fields) → {rec : Val → Fields → Fields} →
    (cur ns : Fields) → (key : String) → (pv : Val) → (s : String) →
    nodupKeysL (keys pairs) = true → lookupF pairs key = some pv →
    lookupF cur key = some (.str s) →
    lookupF (pass1 rec cur pairs ns) key = lookupF ns key
  | .nil, _, cur, ns, key, pv, s, _, hp, _ => by simp [lookupF] at hp
  | .fcons k pv₀ rest, rec, cur, ns, key, pv, s, hnd, hp, hc => by
    obtain ⟨hk, hnd'⟩ := nodupKeysL_cons (by simpa [keys] using hnd)
    by_cases he : k = key
    · subst he
      have hrest : lookupF rest k = none := (lookupF_eq_none rest k).2 hk
      simp only [pass1, hc]
      rw [pass1_lookupF_none rest cur _ k hrest]
    · have hp' : lookupF rest key = some pv := by simpa [lookupF, he] using hp
      simp only [pass1]
      rw [pass1_lookupF_strCur rest cur _ key pv s hnd' hp' hc]
      cases hcur : lookupF cur k with
      | none => simp [lookupF_setF, he]
      | some cv₁ => cases pv₀ <;> cases cv₁ <;> simp [lookupF_setF, he]

theorem pass2_lookupF_none : (pairs : Fields) → {rec : Val → Fields → Fields} →
    (pf ns : Fields) → (key : String) → lookupF pairs key = none →
    lookupF (pass2 rec pf pairs ns) key = lookupF ns key
  | .nil, _, pf, ns, key, _ => by simp [pass2]
  | .fcons k cv rest, rec, pf, ns, key, h => by
    have hne : ¬k = key := fun he => by simp [lookupF, he] at h
    have hrest : lookupF rest key = none := by simpa [lookupF, hne] using h
    simp only [pass2]
    rw [pass2_lookupF_none rest pf _ key hrest]
    by_cases hd : isDeletedMarker (lookupF ns k) = true
    · simp [hd]
    · simp only [Bool.not_eq_true] at hd
      cases cv <;> simp [hd, lookupF_setF, hne]

theorem pass2_lookupF_deleted : (pairs : Fields) → {rec : Val → Fields → Fields} →
    (pf ns : Fields) → (key : String) → (cv : Val) →
    nodupKeysL (keys pairs) = true → lookupF pairs key = some cv →
    lookupF ns key = some (.str "deleted") →
    lookupF (pass2 rec pf pairs ns) key = some (.str "deleted")
  | .nil, _, pf, ns, key, cv, _, hp, _ => by simp [lookupF] at hp
  | .fcons k cv₀ rest, rec, pf, ns, key, cv, hnd, hp, hns => by
    obtain ⟨hk, hnd'⟩ := nodupKeysL_cons (by simpa [keys] using hnd)
    by_cases he : k = key
    · subst he
      have hrest : lookupF rest k = none := (lookupF_eq_none rest k).2 hk
      have hd : isDeletedMarker (lookupF ns k) = true := (isDeletedMarker_iff _).2 hns
      simp only [pass2, hd, if_pos]
      rw [pass2_lookupF_none rest pf _ k hrest]
      exact hns
    · have hp' : lookupF rest key = some cv := by simpa [lookupF, he] using hp
      simp only [pass2]
      by_cases hd : isDeletedMarker (lookupF ns k) = true
      · simp only [hd, if_pos]
        exact pass2_lookupF_deleted rest pf _ key cv hnd' hp' hns
      · simp only [hd, if_neg, Bool.false_eq_true, not_false_iff]
        cases cv₀ with
        | str s =>
          refine pass2_lookupF_deleted rest pf _ key cv hnd' hp' ?_
          rw [lookupF_setF]
          simp [he, hns]
        | obj co =>
          refine pass2_lookupF_deleted rest pf _ key cv hnd' hp' ?_
          rw [lookupF_setF]
          simp [he, hns]

theorem pass2_lookupF_file : (pairs : Fields) → {rec : Val → Fields → Fields} →
    (pf ns : Fields) → (key : String) → (s : String) →
    nodupKeysL (keys pairs) = true → lookupF pairs key = some (.str s) →
    ¬lookupF ns key = some (.str "deleted") →
    lookupF (pass2 rec pf pairs ns) key = some (.str "file")
  | .nil, _, pf, ns, key, s, _, hp, _ => by simp [lookupF] at hp
  | .fcons k cv₀ rest, rec, pf, ns, key, s, hnd, hp, hns => by
    obtain ⟨hk, hnd'⟩ := nodupKeysL_cons (by simpa [keys] using hnd)
    by_cases he : k = key
    · subst he
      have hcv : cv₀ = .str s := by simpa [lookupF] using hp
      subst hcv
      have hrest : lookupF rest k = none := (lookupF_eq_none rest k).2 hk
      have hd : isDeletedMarker (lookupF ns k) = false := by
        rw [← Bool.not_eq_true, isDeletedMarker_iff]
        exact hns
      simp only [pass2, hd, Bool.false_eq_true, if_neg, not_false_iff]
      rw [pass2_lookupF_none rest pf _ k hrest]
      simp [lookupF_setF]
    · have hp' : lookupF rest key = some (.str s) := by simpa [lookupF, he] using hp
      simp only [pass2]
      by_cases hd : isDeletedMarker (lookupF ns k) = true
      · simp only [hd, if_pos]
        exact pass2_lookupF_file rest pf _ key s hnd' hp' hns
      · simp only [hd, Bool.false_eq_true, if_neg, not_false_iff]
        cases cv₀ <;>
          · refine pass2_lookupF_file rest pf _ key s hnd' hp' ?_
            rw [lookupF_setF]
            simp [he]
            exact hns

theorem pass2_lookupF_rec : (pairs : Fields) → {rec : Val → Fields → Fields} →
    (pf ns : Fields) → (key : String) → (co : Fields) →
    nodupKeysL (keys pairs) = true → lookupF pairs key = some (.obj co) →
    ¬lookupF ns key = some (.str "deleted") →
    lookupF (pass2 rec pf pairs ns) key = some (.obj (rec (jsOr (lookupF pf key)) co))
  | .nil, _, pf, ns, key, co, _, hp, _ => by simp [lookupF] at hp
  | .fcons k cv₀ rest, rec, pf, ns, key, co, hnd, hp, hns => by
    obtain ⟨hk, hnd'⟩ := nodupKeysL_cons (by simpa [keys] using hnd)
    by_cases he : k = key
    · subst he
      have hcv : cv₀ = .obj co := by simpa [lookupF] using hp
      subst hcv
      have hrest : lookupF rest k = none := (lookupF_eq_none rest k).2 hk
      have hd : isDeletedMarker (lookupF ns k) = false := by
        rw [← Bool.not_eq_true, isDeletedMarker_iff]
        exact hns
      simp only [pass2, hd, Bool.false_eq_true, if_neg, not_false_iff]
      rw [pass2_lookupF_none rest pf _ k hrest]
      simp [lookupF_setF]
    · have hp' : lookupF rest key = some (.obj co) := by simpa [lookupF, he] using hp
      simp only [pass2]
      by_cases hd : isDeletedMarker (lookupF ns k) = true
      · simp only [hd, if_pos]
        exact pass2_lookupF_rec rest pf _ key co hnd' hp' hns
      · simp only [hd, Bool.false_eq_true, if_neg, not_false_iff]
        cases cv₀ <;>
          · refine pass2_lookupF_rec rest pf _ key co hnd' hp' ?_
            rw [lookupF_setF]
            simp [he]
            exact hns

theorem pass1_keys : (pairs : Fields) → {rec : Val → Fields → Fields} →
    (cur ns : Fields) → (∀ key ∈ keys pairs, key ∈ keys ns) →
    keys (pass1 rec cur pairs ns) = keys ns
  | .nil, _, cur, ns, _ => by simp [pass1]
  | .fcons k pv rest, rec, cur, ns, H => by
    have hkns : k ∈ keys ns := H k (List.mem_cons_self k _)
    have hstep : ∀ v, keys (setF ns k v) = keys ns := by
      intro v
      rw [keys_setF]
      simp [hkns]
    have Hrest : ∀ ns₁, keys ns₁ = keys ns → ∀ key ∈ keys rest, key ∈ keys ns₁ := by
      intro ns₁ he key hk
      rw [he]
      exact H key (List.mem_cons_of_mem _ hk)
    simp only [pass1]
    cases hcur : lookupF cur k with
    | none =>
      rw [pass1_keys rest cur _ (Hrest _ (hstep _)), hstep]
    | some cv =>
      cases pv with
      | str s => exact pass1_keys rest cur _ (Hrest _ rfl)
      | obj po =>
        cases cv with
        | str s => exact pass1_keys rest cur _ (Hrest _ rfl)
        | obj co =>
          rw [pass1_keys rest cur _ (Hrest _ (hstep _)), hstep]

theorem pass2_keys : (pairs : Fields) → {rec : Val → Fields → Fields} →
    (pf ns : Fields) → nodupKeysL (keys pairs) = true →
    keys (pass2 rec pf pairs ns) =
      keys ns ++ (keys pairs).filter (fun x => !((keys ns).contains x))
  | .nil, _, pf, ns, _ => by simp [pass2, keys]
  | .fcons k cv rest, rec, pf, ns, hnd => by
    obtain ⟨hk, hnd'⟩ := nodupKeysL_cons (by simpa [keys] using hnd)
    simp only [pass2, keys]
    by_cases hd : isDeletedMarker (lookupF ns k) = true
    · have hkns : k ∈ keys ns := by
        rw [isDeletedMarker_iff] at hd
        exact mem_keys_of_lookupF ns k _ hd
      have hpk : (fun x => !((keys ns).contains x)) k = false := by simp [hkns]
      rw [if_pos hd, pass2_keys rest pf ns hnd']
      simp [List.filter_cons, hpk, hkns]
    · simp only [hd, Bool.false_eq_true, if_neg, not_false_iff]
      by_cases hkns : k ∈ keys ns
      · have hstep : ∀ v, keys (setF ns k v) = keys ns := by
          intro v
          rw [keys_setF]
          simp [hkns]
        have hpk : (fun x => !((keys ns).contains x)) k = false := by simp [hkns]
        cases cv with
        | obj co =>
          rw [pass2_keys rest pf _ hnd', hstep]
          simp [List.filter_cons, hpk, hkns]
        | str s =>
          rw [pass2_keys rest pf _ hnd', hstep]
          simp [List.filter_cons, hpk, hkns]
      · have hstep : ∀ v, keys (setF ns k v) = keys ns ++ [k] := by
          intro v
          rw [keys_setF]
          simp [hkns]
        have hpk : (fun x => !((keys ns).contains x)) k = true := by simp [hkns]
        have hfilter : (keys rest).filter (fun x => !((keys ns ++ [k]).contains x)) =
            (keys rest).filter (fun x => !((keys ns).contains x)) := by
          apply List.filter_congr
          intro x hx
          have hxk : ¬x = k := fun he => hk (he ▸ hx)
          simp [hxk]
        cases cv with
        | obj co =>
          rw [pass2_keys rest pf _ hnd', hstep, hfilter]
          simp [List.filter_cons, hpk, hkns]
        | str s =>
          rw [pass2_keys rest pf _ hnd', hstep, hfilter]
          simp [List.filter_cons, hpk, hkns]

theorem pass1_congr : (pairs : Fields) → {rec rec' : Val → Fields → Fields} →
    (cur ns : Fields) →
    (∀ p' co, vdepth (.obj co) ≤ odepth cur → rec p' co = rec' p' co) →
    pass1 rec cur pairs ns = pass1 rec' cur pairs ns
  | .nil, _, _, cur, ns, _ => by simp [pass1]
  | .fcons k pv rest, rec, rec', cur, ns, H => by
    simp only [pass1]
    cases hcur : lookupF cur k with
    | none => exact pass1_congr rest cur _ H
    | some cv =>
      cases pv with
      | str s => cases cv <;> exact pass1_congr rest cur _ H
      | obj po =>
        cases cv with
        | str s => exact pass1_congr rest cur _ H
        | obj co =>
          have e : rec (Val.obj po) co = rec' (Val.obj po) co :=
            H _ co (lookupF_depth cur k _ hcur)
          simp only [e]
          exact pass1_congr rest cur _ H

theorem pass2_congr : (pairs : Fields) → {rec rec' : Val → Fields → Fields} →
    (pf ns : Fields) →
    (∀ p' co, vdepth (.obj co) ≤ odepth pairs → rec p' co = rec' p' co) →
    pass2 rec pf pairs ns = pass2 rec' pf pairs ns
  | .nil, _, _, pf, ns, _ => by simp [pass2]
  | .fcons k cv rest, rec, rec', pf, ns, H => by
    have H' : ∀ p' co, vdepth (.obj co) ≤ odepth rest → rec p' co = rec' p' co :=
      fun p' co h => H p' co (le_trans h (odepth_fcons_le k cv rest))
    simp only [pass2]
    by_cases hd : isDeletedMarker (lookupF ns k) = true
    · simp only [hd, if_pos]
      exact pass2_congr rest pf _ H'
    · simp only [hd, Bool.false_eq_true, if_neg, not_false_iff]
      cases cv with
      | str s => exact pass2_congr rest pf _ H'
      | obj co =>
        have hdep : vdepth (.obj co) ≤ odepth (.fcons k (.obj co) rest) := by
          simp only [odepth]
          exact le_max_left _ _
        have e : rec (jsOr (lookupF pf k)) co = rec' (jsOr (lookupF pf k)) co :=
          H _ co hdep
        simp only [e]
        exact pass2_congr rest pf _ H'

theorem markDeletedFilesF_congr : (f₁ f₂ : Nat) → (p : Val) → (c : Fields) →
    odepth c < f₁ → odepth c < f₂ →
    markDeletedFilesF f₁ p c = markDeletedFilesF f₂ p c
  | 0, _, _, c, h₁, _ => absurd h₁ (by omega)
  | _ + 1, 0, _, c, _, h₂ => absurd h₂ (by omega)
  | n + 1, m + 1, p, c, h₁, h₂ => by
    have H : ∀ p' co, vdepth (.obj co) ≤ odepth c →
        markDeletedFilesF n p' co = markDeletedFilesF m p' co := by
      intro p' co hdep
      simp only [vdepth] at hdep
      exact markDeletedFilesF_congr n m p' co (by omega) (by omega)
    simp only [markDeletedFilesF]
    have e1 : pass1 (markDeletedFilesF n) c (enumFields p) (enumFields p) =
        pass1 (markDeletedFilesF m) c (enumFields p) (enumFields p) :=
      pass1_congr (enumFields p) c (enumFields p) H
    have e2 : pass2 (markDeletedFilesF n) (enumFields p) c
          (pass1 (markDeletedFilesF m) c (enumFields p) (enumFields p)) =
        pass2 (markDeletedFilesF m) (enumFields p) c
          (pass1 (markDeletedFilesF m) c (enumFields p) (enumFields p)) :=
      pass2_congr c (enumFields p) _ H
    rw [e1, e2]

theorem markDeletedFiles_eqF (f : Nat) (p : Val) (c : Fields) (h : odepth c < f) :
    markDeletedFiles p c = markDeletedFilesF f p c :=
  markDeletedFilesF_congr (odepth c + 1) f p c (by omega) h

theorem markDeletedFiles_unfold (p : Val) (c : Fields) :
    markDeletedFiles p c =
      pass2 (markDeletedFilesF (odepth c)) (enumFields p) c
        (pass1 (markDeletedFilesF (odepth c)) c (enumFields p) (enumFields p)) := by
  simp only [markDeletedFiles, markDeletedFilesF]

/-!
Transfer-walk lemmas: the local existence set only grows during a
download walk, downloads only target paths absent from it, and uploads
are issued exactly for the probe outcomes `null` and `0`.
-/

mutual
theorem downloadItem_mono : (name : String) → (t : Val) → (rp lp : String) →
    (fs : List String) → (q : String) → q ∈ fs → q ∈ (downloadItem name t rp lp fs).2
  | name, .obj sub, rp, lp, fs, q, h => by
    simp only [downloadItem]
    exact downloadFiles_mono sub _ _ _ q (List.mem_cons_of_mem _ h)
  | name, .str s, rp, lp, fs, q, h => by
    simp only [downloadItem]
    by_cases hc : fs.contains (pathJoin lp name) = true
    · rw [if_pos hc]
      exact h
    · rw [if_neg hc]
      exact List.mem_cons_of_mem _ h
theorem downloadFiles_mono : (entries : Fields) → (rp lp : String) →
    (fs : List String) → (q : String) → q ∈ fs → q ∈ (downloadFiles entries rp lp fs).2
  | .nil, rp, lp, fs, q, h => by simpa [downloadFiles] using h
  | .fcons name t rest, rp, lp, fs, q, h => by
    simp only [downloadFiles]
    exact downloadFiles_mono rest rp lp _ q (downloadItem_mono name t rp lp fs q h)
end

mutual
theorem downloadItem_new : (name : String) → (t : Val) → (rp lp : String) →
    (fs : List String) → (q : String) → q ∈ (downloadItem name t rp lp fs).1 → q ∉ fs
  | name, .obj sub, rp, lp, fs, q, h => by
    simp only [downloadItem] at h
    intro hq
    exact downloadFiles_new sub _ _ _ q h (List.mem_cons_of_mem _ hq)
  | name, .str s, rp, lp, fs, q, h => by
    simp only [downloadItem] at h
    by_cases hc : fs.contains (pathJoin lp name) = true
    · rw [if_pos hc] at h
      simp at h
    · rw [if_neg hc] at h
      have h' : q ∈ [pathJoin lp name] := h
      simp only [List.mem_singleton] at h'
      subst h'
      exact not_mem_of_contains_eq_false (by simpa using hc)
theorem downloadFiles_new : (entries : Fields) → (rp lp : String) →
    (fs : List String) → (q : String) → q ∈ (downloadFiles entries rp lp fs).1 → q ∉ fs
  | .nil, rp, lp, fs, q, h => by simp [downloadFiles] at h
  | .fcons name t rest, rp, lp, fs, q, h => by
    simp only [downloadFiles, List.mem_append] at h
    rcases h with h | h
    · exact downloadItem_new name t rp lp fs q h
    · intro hq
      exact downloadFiles_new rest rp lp _ q h (downloadItem_mono name t rp lp fs q hq)
end

theorem jsTruthyNum_false {v : Option Int} (h : jsTruthyNum v = false) :
    v = none ∨ v = some 0 := by
  cases v with
  | none => exact Or.inl rfl
  | some n =>
    simp only [jsTruthyNum, bne_eq_false_iff_eq] at h
    exact Or.inr (by rw [h])

mutual
theorem uploadItem_probe : (probe : String → Option Int) → (name : String) → (t : Val) →
    (lp rp : String) → (q : String) → q ∈ uploadItem probe name t lp rp →
    probe q = none ∨ probe q = some 0
  | probe, name, .obj sub, lp, rp, q, h => by
    simp only [uploadItem] at h
    exact uploadFiles_probe probe sub _ _ q h
  | probe, name, .str s, lp, rp, q, h => by
    simp only [uploadItem] at h
    by_cases ht : jsTruthyNum (probe (pathJoin rp name)) = true
    · rw [if_pos ht] at h
      simp at h
    · rw [if_neg ht] at h
      have h' : q ∈ [pathJoin rp name] := h
      simp only [List.mem_singleton] at h'
      subst h'
      exact jsTruthyNum_false (by simpa using ht)
theorem uploadFiles_probe : (probe : String → Option Int) → (entries : Fields) →
    (lp rp : String) → (q : String) → q ∈ uploadFiles probe entries lp rp →
    probe q = none ∨ probe q = some 0
  | probe, .nil, lp, rp, q, h => by simp [uploadFiles] at h
  | probe, .fcons name t rest, lp, rp, q, h => by
    simp only [uploadFiles, List.mem_append] at h
    rcases h with h | h
    · exact uploadItem_probe probe name t lp rp q h
    · exact uploadFiles_probe probe rest lp rp q h
end

theorem uploadFiles_sends : (probe : String → Option Int) → (entries : Fields) →
    (lp rp k s : String) → memF k (.str s) entries →
    (probe (pathJoin rp k) = none ∨ probe (pathJoin rp k) = some 0) →
    pathJoin rp k ∈ uploadFiles probe entries lp rp
  | probe, .nil, lp, rp, k, s, hm, _ => absurd hm (by simp [memF])
  | probe, .fcons name t rest, lp, rp, k, s, hm, hp => by
    simp only [uploadFiles, List.mem_append]
    rcases hm with ⟨hk, hv⟩ | hm
    · subst hk
      subst hv
      left
      have ht : jsTruthyNum (probe (pathJoin rp k)) = false := by
        rcases hp with hp | hp <;> simp [jsTruthyNum, hp]
      simp only [uploadItem]
      rw [if_neg (by simp [ht])]
      exact List.mem_singleton.mpr rfl
    · right
      exact uploadFiles_sends probe rest lp rp k s hm hp

/-!
Phase-loop lemmas for the orchestrator.
-/

theorem phasePass_mem (ph ph' : Phase) (a : String) :
    (servers : List Server) →
    ((ph', a) ∈ phasePass ph servers ↔
      ph' = ph ∧ ∃ s ∈ servers, s.address = a ∧ s.online = true)
  | [] => by simp [phasePass]
  | s :: rest => by
    simp only [phasePass, List.mem_append, phasePass_mem ph ph' a rest]
    by_cases ho : s.online = true
    · simp only [ho, if_pos, List.mem_singleton, Prod.mk.injEq]
      constructor
      · rintro (⟨hph, ha⟩ | ⟨hph, s', hs', ha, hon⟩)
        · exact ⟨hph, s, List.mem_cons_self s rest, ha.symm, ho⟩
        · exact ⟨hph, s', List.mem_cons_of_mem _ hs', ha, hon⟩
      · rintro ⟨hph, s', hs', ha, hon⟩
        rcases List.mem_cons.mp hs' with rfl | hs'
        · exact Or.inl ⟨hph, ha.symm⟩
        · exact Or.inr ⟨hph, s', hs', ha, hon⟩
    · simp only [Bool.not_eq_true] at ho
      simp only [ho, Bool.false_eq_true, if_neg, not_false_iff, List.not_mem_nil,
        false_or]
      constructor
      · rintro ⟨hph, s', hs', ha, hon⟩
        exact ⟨hph, s', List.mem_cons_of_mem _ hs', ha, hon⟩
      · rintro ⟨hph, s', hs', ha, hon⟩
        rcases List.mem_cons.mp hs' with rfl | hs'
        · rw [hon] at ho
          cases ho
        · exact ⟨hph, s', hs', ha, hon⟩

theorem phasePass_phase (ph : Phase) (e : Phase × String) :
    (servers : List Server) → e ∈ phasePass ph servers → e.1 = ph
  | [], h => by simp [phasePass] at h
  | s :: rest, h => by
    simp only [phasePass, List.mem_append] at h
    rcases h with h | h
    · by_cases ho : s.online = true
      · simp only [ho, if_pos, List.mem_singleton] at h
        rw [h]
      · simp only [Bool.not_eq_true] at ho
        simp [ho] at h
    · exact phasePass_phase ph e rest h

/-!
Claim theorems.
-/

/-- C1 counterexample: two servers, two cycles.  Cycle 1 sees A online and
B offline, so cycle 2 starts with A's recorded reachability `true`.  In
cycle 2 both are online: A did not transition offline-to-online, yet the
delete phase (and every other phase) is applied to A, because the
`shouldSync` gate of line 221 is global, not per-store. -/
theorem claim_C1_counterexample :
    lookupB (updateStates [] [⟨"A", "f", true⟩, ⟨"B", "f", false⟩]) "A" = some true ∧
    transitioned (updateStates [] [⟨"A", "f", true⟩, ⟨"B", "f", false⟩]) ⟨"A", "f", true⟩ = false ∧
    (Phase.delete, "A") ∈
      cycleEvents (updateStates [] [⟨"A", "f", true⟩, ⟨"B", "f", false⟩])
        [⟨"A", "f", true⟩, ⟨"B", "f", true⟩] := by
  refine ⟨rfl, rfl, ?_⟩
  decide

/-- C1 amended: the reconciliation phases are applied to a store iff that
store is online this cycle and SOME configured store (not necessarily the
same one) transitioned offline-to-online this cycle; a store that stayed
online is reconciled again whenever any other store transitions. -/
theorem claim_C1_amended_global_gating (states : List (String × Bool))
    (servers : List Server) (ph : Phase) (a : String) :
    (ph, a) ∈ cycleEvents states servers ↔
      (∃ s ∈ servers, transitioned states s = true) ∧
      ∃ s ∈ servers, s.address = a ∧ s.online = true := by
  unfold cycleEvents
  by_cases h : shouldSync states servers = true
  · rw [if_pos h]
    have hP : ∃ s ∈ servers, transitioned states s = true := by
      simpa [shouldSync, List.any_eq_true] using h
    simp only [List.mem_append, phasePass_mem]
    cases ph <;> simp [hP]
  · rw [if_neg h]
    have hno : ∀ s ∈ servers, ¬transitioned states s = true := by
      intro s hs
      intro ht
      exact h (by simp [shouldSync, List.any_eq_true]; exact ⟨s, hs, ht⟩)
    simp only [List.not_mem_nil, false_iff, not_and]
    intro ⟨s, hs, ht⟩
    exact absurd ht (hno s hs)

/-- C1 amended witness at a concrete input: store B transitions, so the
delete phase is applied to it. -/
theorem claim_C1_amended_witness :
    (Phase.delete, "B") ∈ cycleEvents [("A", true)] [⟨"B", "f", true⟩] :=
  (claim_C1_amended_global_gating [("A", true)] [⟨"B", "f", true⟩] .delete "B").2
    ⟨⟨⟨"B", "f", true⟩, by simp, rfl⟩, ⟨"B", "f", true⟩, by simp, rfl, rfl⟩

/-- C4: within one cycle the emitted reconciliation events are ordered by
phase: every delete (on any online store) precedes every download, which
precedes every upload — the three loops of lines 242-270 are never
interleaved per store. -/
theorem claim_C4_phase_ordering (states : List (String × Bool)) (servers : List Server) :
    List.Pairwise (fun e₁ e₂ => phaseRank e₁.1 ≤ phaseRank e₂.1)
      (cycleEvents states servers) := by
  unfold cycleEvents
  by_cases h : shouldSync states servers = true
  · rw [if_pos h]
    have hpw : ∀ ph : Phase,
        List.Pairwise (fun e₁ e₂ : Phase × String => phaseRank e₁.1 ≤ phaseRank e₂.1)
          (phasePass ph servers) := by
      intro ph
      apply List.pairwise_of_forall_mem_list
      intro a ha b hb
      rw [phasePass_phase ph a servers ha, phasePass_phase ph b servers hb]
    rw [List.pairwise_append]
    refine ⟨?_, hpw .upload, ?_⟩
    · rw [List.pairwise_append]
      refine ⟨hpw .delete, hpw .download, ?_⟩
      intro a ha b hb
      rw [phasePass_phase _ a servers ha, phasePass_phase _ b servers hb]
      simp [phaseRank]
    · intro a ha b hb
      rw [List.mem_append] at ha
      rw [phasePass_phase _ b servers hb]
      rcases ha with ha | ha
      · rw [phasePass_phase _ a servers ha]
        simp [phaseRank]
      · rw [phasePass_phase _ a servers ha]
        simp [phaseRank]
  · rw [if_neg h]
    exact List.Pairwise.nil

/-- C7: on previous `{a: "file", b: {c: "file"}}` and current `{b: {}}`
the merge marks `a` as `"deleted"` and `b.c` as `"deleted"`, and the
extractor returns exactly `["a", "b/c"]`. -/
theorem claim_C7_deletion_detection_example :
    markDeletedFiles
        (.obj (.fcons "a" (.str "file") (.fcons "b" (.obj (.fcons "c" (.str "file") .nil)) .nil)))
        (.fcons "b" (.obj .nil) .nil) =
      .fcons "a" (.str "deleted") (.fcons "b" (.obj (.fcons "c" (.str "deleted") .nil)) .nil) ∧
    getDeletedFiles
        (markDeletedFiles
          (.obj (.fcons "a" (.str "file") (.fcons "b" (.obj (.fcons "c" (.str "file") .nil)) .nil)))
          (.fcons "b" (.obj .nil) .nil)) "" =
      ["a", "b/c"] :=
  ⟨rfl, rfl⟩

/-- C3 counterexample: the remote size probe reports `0` (a non-null
integer) for the only local file, yet `uploadFiles` re-sends it, because
line 67 tests JS truthiness (`!existsRemotely`) and `0` is falsy. -/
theorem claim_C3_counterexample :
    uploadFiles (fun _ => some 0) (.fcons "save.bin" (.str "file") .nil) "/local" "/remote" =
      ["/remote/save.bin"] := rfl

/-- C3 amended: Download never transfers to a local path that already
exists (and the existence set only grows, so such a path is never
touched); Upload skips a file exactly when the probe returns a nonzero
integer — a probe returning `null` (which includes probe failure) or `0`
leads to an upload. -/
theorem claim_C3_amended_no_retransfer :
    (∀ (remote : Fields) (rp lp : String) (fs : List String) (q : String),
       q ∈ fs → q ∉ (downloadFiles remote rp lp fs).1) ∧
    (∀ (probe : String → Option Int) (localTree : Fields) (lp rp q : String),
       q ∈ uploadFiles probe localTree lp rp → probe q = none ∨ probe q = some 0) ∧
    (∀ (probe : String → Option Int) (localTree : Fields) (lp rp k s : String),
       memF k (.str s) localTree →
       (probe (pathJoin rp k) = none ∨ probe (pathJoin rp k) = some 0) →
       pathJoin rp k ∈ uploadFiles probe localTree lp rp) :=
  ⟨fun remote rp lp fs q hq hmem => downloadFiles_new remote rp lp fs q hmem hq,
   fun probe localTree lp rp q h => uploadFiles_probe probe localTree lp rp q h,
   fun probe localTree lp rp k s hm hp => uploadFiles_sends probe localTree lp rp k s hm hp⟩

/-- C3 amended witness: a pre-existing local path is never downloaded, and
a file whose probe returns `null` is uploaded. -/
theorem claim_C3_amended_witness :
    "a" ∉ (downloadFiles (.fcons "a" (.str "file") .nil) "/r" "" ["a"]).1 ∧
    pathJoin "/r" "a" ∈
      uploadFiles (fun _ => none) (.fcons "a" (.str "file") .nil) "" "/r" :=
  ⟨claim_C3_amended_no_retransfer.1 (.fcons "a" (.str "file") .nil) "/r" "" ["a"] "a"
      (List.mem_singleton.mpr rfl),
   claim_C3_amended_no_retransfer.2.2 (fun _ => none) (.fcons "a" (.str "file") .nil) "" "/r"
      "a" "file" (Or.inl ⟨rfl, rfl⟩) (Or.inl rfl)⟩

/-- C9: delete propagation isolates failures per path.  The loop maps
every deleted path to exactly one event in order (no failure aborts the
remaining paths), and per path: a listing error is caught as `failed`, an
absent target is skipped without error, a present directory is removed
recursively, a present file is removed singly, and a removal error is
caught as `failed`. -/
theorem claim_C9_delete_error_isolation (client : FtpClient) (remotePath : String)
    (files : List String) :
    (deleteFilesFromServers client remotePath files).length = files.length ∧
    deleteFilesFromServers client remotePath files =
      files.map (fun f => processDeletion client (remoteTarget remotePath f)) ∧
    (∀ p e, client.list (dirname p) = .error e → processDeletion client p = .failed p) ∧
    (∀ p items, client.list (dirname p) = .ok items →
      items.find? (fun item => item.name == basename p) = none →
      processDeletion client p = .skipped p) ∧
    (∀ p items it, client.list (dirname p) = .ok items →
      items.find? (fun item => item.name == basename p) = some it →
      it.isDirectory = true → client.removeDir p = .ok () →
      processDeletion client p = .removedDir p) ∧
    (∀ p items it, client.list (dirname p) = .ok items →
      items.find? (fun item => item.name == basename p) = some it →
      it.isDirectory = false → client.remove p = .ok () →
      processDeletion client p = .removedFile p) ∧
    (∀ p items it e, client.list (dirname p) = .ok items →
      items.find? (fun item => item.name == basename p) = some it →
      it.isDirectory = true → client.removeDir p = .error e →
      processDeletion client p = .failed p) ∧
    (∀ p items it e, client.list (dirname p) = .ok items →
      items.find? (fun item => item.name == basename p) = some it →
      it.isDirectory = false → client.remove p = .error e →
      processDeletion client p = .failed p) := by
  have hmap : deleteFilesFromServers client remotePath files =
      files.map (fun f => processDeletion client (remoteTarget remotePath f)) := by
    induction files with
    | nil => simp [deleteFilesFromServers]
    | cons f fs ih => simp [deleteFilesFromServers, ih]
  refine ⟨by rw [hmap, List.length_map], hmap, ?_, ?_, ?_, ?_, ?_, ?_⟩
  · intro p e hl
    simp [processDeletion, hl]
  · intro p items hl hf
    simp [processDeletion, hl, hf]
  · intro p items it hl hf hd hr
    simp [processDeletion, hl, hf, hd, hr]
  · intro p items it hl hf hd hr
    simp [processDeletion, hl, hf, hd, hr]
  · intro p items it e hl hf hd hr
    simp [processDeletion, hl, hf, hd, hr]
  · intro p items it e hl hf hd hr
    simp [processDeletion, hl, hf, hd, hr]

/-- C9 witness: a client whose listing always fails still produces one
event per path, each a caught failure. -/
theorem claim_C9_witness :
    (deleteFilesFromServers
        ⟨fun _ => .error "offline", fun _ => .ok (), fun _ => .ok ()⟩
        "/saves" ["a", "b"]).length = 2 ∧
    processDeletion ⟨fun _ => .error "offline", fun _ => .ok (), fun _ => .ok ()⟩
        "/saves/a" = .failed "/saves/a" := by
  have h := claim_C9_delete_error_isolation
    ⟨fun _ => .error "offline", fun _ => .ok (), fun _ => .ok ()⟩ "/saves" ["a", "b"]
  exact ⟨h.1, h.2.2.1 "/saves/a" "offline" rfl⟩

/-!
Merge lemmas specific to the claims: enumFields on objects, no-deleted
preservation, and the empty-previous merge.
-/

theorem enumFields_obj (p : Fields) : enumFields (.obj p) = p := rfl

theorem noDeletedO_lookupF : (o : Fields) → (key : String) → (v : Val) →
    noDeletedO o = true → lookupF o key = some v → noDeletedV v = true
  | .nil, key, v, _, h => by simp [lookupF] at h
  | .fcons k₁ w rest, key, v, hn, h => by
    simp only [noDeletedO, Bool.and_eq_true] at hn
    by_cases h₁ : k₁ = key
    · have hw : w = v := by simpa [lookupF, h₁] using h
      exact hw ▸ hn.1
    · simp only [lookupF, if_neg h₁] at h
      exact noDeletedO_lookupF rest key v hn.2 h

theorem noDeletedO_setF : (o : Fields) → (key : String) → (v : Val) →
    noDeletedO o = true → noDeletedV v = true → noDeletedO (setF o key v) = true
  | .nil, key, v, _, hv => by simp [setF, noDeletedO, hv]
  | .fcons k₁ w rest, key, v, hn, hv => by
    simp only [noDeletedO, Bool.and_eq_true] at hn
    by_cases h₁ : k₁ = key
    · simp [setF, h₁, noDeletedO, hv, hn.2]
    · simp [setF, h₁, noDeletedO, hn.1, noDeletedO_setF rest key v hn.2 hv]

theorem noDeletedO_not_marker {ns : Fields} {k : String} (hn : noDeletedO ns = true) :
    isDeletedMarker (lookupF ns k) = false := by
  cases hl : lookupF ns k with
  | none => simp [isDeletedMarker]
  | some v =>
    have := noDeletedO_lookupF ns k v hn hl
    cases v with
    | str s =>
      simp only [noDeletedV, bne_iff_ne, ne_eq] at this
      simp [isDeletedMarker, this]
    | obj fs => simp [isDeletedMarker]

theorem pass2_noDeleted_empty : (pairs : Fields) → {rec : Val → Fields → Fields} →
    (ns : Fields) → noDeletedO ns = true →
    (∀ co, noDeletedO (rec (.obj .nil) co) = true) →
    noDeletedO (pass2 rec .nil pairs ns) = true
  | .nil, _, ns, hn, _ => by simpa [pass2] using hn
  | .fcons k cv rest, rec, ns, hn, hr => by
    simp only [pass2]
    rw [if_neg (by simp [noDeletedO_not_marker hn])]
    cases cv with
    | str s =>
      exact pass2_noDeleted_empty rest _ (noDeletedO_setF ns k _ hn (by simp [noDeletedV])) hr
    | obj co =>
      refine pass2_noDeleted_empty rest _ (noDeletedO_setF ns k _ hn ?_) hr
      show noDeletedV (.obj (rec (jsOr (lookupF Fields.nil k)) co)) = true
      simpa [lookupF, jsOr, noDeletedV] using hr co

theorem mergeEmpty_noDeleted : (fuel : Nat) → (c : Fields) →
    noDeletedO (markDeletedFilesF fuel (.obj .nil) c) = true
  | 0, c => by simp [markDeletedFilesF, noDeletedO]
  | fuel + 1, c => by
    simp only [markDeletedFilesF, enumFields_obj, pass1]
    exact pass2_noDeleted_empty c .nil (by simp [noDeletedO])
      (fun co => mergeEmpty_noDeleted fuel co)

mutual
theorem getDeletedEntry_empty : (k : String) → (v : Val) → (base : String) →
    noDeletedV v = true → getDeletedEntry k v base = []
  | k, .str s, base, hv => by
    simp only [noDeletedV, bne_iff_ne, ne_eq] at hv
    simp [getDeletedEntry, hv]
  | k, .obj sub, base, hv => by
    simp only [getDeletedEntry]
    exact getDeletedFiles_empty sub _ hv
theorem getDeletedFiles_empty : (s : Fields) → (base : String) →
    noDeletedO s = true → getDeletedFiles s base = []
  | .nil, base, _ => by simp [getDeletedFiles]
  | .fcons k v rest, base, hn => by
    simp only [noDeletedO, Bool.and_eq_true] at hn
    simp only [getDeletedFiles, getDeletedEntry_empty k v base hn.1,
      getDeletedFiles_empty rest base hn.2, List.append_nil]
end

/-- C2 counterexample: previous maps `a` to `"deleted"` and current maps
`a` to `"file"` (the local file was recreated), yet the merged value is
still `"deleted"`, not `"file"`: line 126 skips every key whose
`newState` entry is `"deleted"`, including markers inherited from
`previous` rather than set by step 1 of this pass. -/
theorem claim_C2_counterexample :
    lookupF (markDeletedFiles (.obj (.fcons "a" (.str "deleted") .nil))
        (.fcons "a" (.str "file") .nil)) "a" = some (.str "deleted") ∧
    Val.str "deleted" ≠ Val.str "file" :=
  ⟨rfl, by simp⟩

/-- C2 amended: deletion precedence is not limited to the current pass.
For a key present in `current`: if `previous` maps it to `"deleted"`, the
merged value stays `"deleted"` even though the key is present in
`current`; only when the previous value is not the `"deleted"` marker is
the key set to `"file"` (current value a string) or recursively merged
(current value an object, merged against `previous?.[key] || {}`). -/
theorem claim_C2_amended_sticky_deletion (p c : Fields) (k : String) (v : Val)
    (hp : nodupKeysL (keys p) = true) (hc : nodupKeysL (keys c) = true)
    (hkc : lookupF c k = some v) :
    (lookupF p k = some (.str "deleted") →
      lookupF (markDeletedFiles (.obj p) c) k = some (.str "deleted")) ∧
    (lookupF p k ≠ some (.str "deleted") →
      lookupF (markDeletedFiles (.obj p) c) k =
        match v with
        | .str _ => some (.str "file")
        | .obj co => some (.obj (markDeletedFiles (jsOr (lookupF p k)) co))) := by
  rw [markDeletedFiles_unfold, enumFields_obj]
  constructor
  · intro hpd
    have h1 : lookupF (pass1 (markDeletedFilesF (odepth c)) c p p) k =
        some (.str "deleted") := by
      cases v with
      | str s =>
        rw [pass1_lookupF_strCur p c p k (.str "deleted") s hp hpd hkc]
        exact hpd
      | obj co =>
        rw [pass1_lookupF_strPrev p c p k "deleted" (.obj co) hp hpd hkc]
        exact hpd
    exact pass2_lookupF_deleted c p _ k v hc hkc h1
  · intro hnd
    have h1 : lookupF (pass1 (markDeletedFilesF (odepth c)) c p p) k ≠
        some (.str "deleted") := by
      cases hkp : lookupF p k with
      | none =>
        rw [pass1_lookupF_none p c p k hkp, hkp]
        simp
      | some pv =>
        cases pv with
        | str s =>
          have hs1 : lookupF (pass1 (markDeletedFilesF (odepth c)) c p p) k =
              some (.str s) := by
            cases v with
            | str s₂ => rw [pass1_lookupF_strCur p c p k (.str s) s₂ hp hkp hkc]; exact hkp
            | obj co => rw [pass1_lookupF_strPrev p c p k s (.obj co) hp hkp hkc]; exact hkp
          rw [hs1]
          intro hcon
          apply hnd
          rw [hkp]
          simpa using hcon
        | obj po =>
          cases v with
          | str s₂ =>
            rw [pass1_lookupF_strCur p c p k (.obj po) s₂ hp hkp hkc, hkp]
            simp
          | obj co =>
            rw [pass1_lookupF_rec p c p k po co hp hkp hkc]
            simp
    cases v with
    | str s => exact pass2_lookupF_file c p _ k s hc hkc h1
    | obj co =>
      rw [pass2_lookupF_rec c p _ k co hc hkc h1]
      have hdep : odepth co < odepth c := by
        have := lookupF_depth c k _ hkc
        simp only [vdepth] at this
        omega
      rw [← markDeletedFiles_eqF (odepth c) (jsOr (lookupF p k)) co hdep]

/-- C2 amended witness: an inherited `"deleted"` marker survives a key
present in current, and a genuinely new key is recorded as `"file"`. -/
theorem claim_C2_amended_witness :
    lookupF (markDeletedFiles (.obj (.fcons "a" (.str "deleted") .nil))
        (.fcons "a" (.obj .nil) .nil)) "a" = some (.str "deleted") ∧
    lookupF (markDeletedFiles (.obj .nil) (.fcons "b" (.str "file") .nil)) "b" =
      some (.str "file") :=
  ⟨(claim_C2_amended_sticky_deletion (.fcons "a" (.str "deleted") .nil)
      (.fcons "a" (.obj .nil) .nil) "a" (.obj .nil) rfl rfl rfl).1 rfl,
   (claim_C2_amended_sticky_deletion .nil (.fcons "b" (.str "file") .nil) "b"
      (.str "file") rfl rfl rfl).2 (by simp [lookupF])⟩

/-- C8: when reading or parsing the persisted snapshot fails, the loader
returns the empty snapshot `{}` instead of raising, and merging `{}`
against a current snapshot free of `"deleted"` markers yields a snapshot
free of `"deleted"` markers, so the extracted deleted-path list is empty
— no deletion is emitted purely from the persistence failure. -/
theorem claim_C8_failsafe (e : String) (c : Fields) (_hc : noDeletedO c = true) :
    loadFileState (.error e) = .obj .nil ∧
    noDeletedO (markDeletedFiles (loadFileState (.error e)) c) = true ∧
    getDeletedFiles (markDeletedFiles (loadFileState (.error e)) c) "" = [] := by
  have hnd : noDeletedO (markDeletedFiles (.obj .nil) c) = true := by
    rw [markDeletedFiles]
    exact mergeEmpty_noDeleted (odepth c + 1) c
  exact ⟨rfl, hnd, getDeletedFiles_empty _ "" hnd⟩

/-- C8 witness: a corrupt document and the current snapshot `{a: "file"}`
produce no deletions. -/
theorem claim_C8_witness :
    loadFileState (.error "corrupt") = .obj .nil ∧
    noDeletedO (markDeletedFiles (loadFileState (.error "corrupt"))
      (.fcons "a" (.str "file") .nil)) = true ∧
    getDeletedFiles (markDeletedFiles (loadFileState (.error "corrupt"))
      (.fcons "a" (.str "file") .nil)) "" = [] :=
  claim_C8_failsafe "corrupt" (.fcons "a" (.str "file") .nil) (by decide)

/-!
Self-merge lemmas for C5: merging a tree snapshot with itself is the
identity.
-/

theorem treeSnapO_fcons {k : String} {v : Val} {rest : Fields}
    (h : treeSnapO (.fcons k v rest) = true) :
    k ∉ keys rest ∧ treeSnapV v = true ∧ treeSnapO rest = true := by
  simp only [treeSnapO, Bool.and_eq_true, Bool.not_eq_true'] at h
  exact ⟨not_mem_of_contains_eq_false h.1.1, h.1.2, h.2⟩

theorem treeSnapO_nodup : (c : Fields) → treeSnapO c = true → nodupKeysL (keys c) = true
  | .nil, _ => rfl
  | .fcons k v rest, h => by
    obtain ⟨hk, _, hrest⟩ := treeSnapO_fcons h
    simp only [keys, nodupKeysL, Bool.and_eq_true, Bool.not_eq_true']
    refine ⟨by simpa using hk, treeSnapO_nodup rest hrest⟩

mutual
theorem treeSnapV_noDeleted : (v : Val) → treeSnapV v = true → noDeletedV v = true
  | .str s, h => by
    simp only [treeSnapV, beq_iff_eq] at h
    simp [noDeletedV, h]
  | .obj fs, h => treeSnapO_noDeleted fs h
theorem treeSnapO_noDeleted : (c : Fields) → treeSnapO c = true → noDeletedO c = true
  | .nil, _ => rfl
  | .fcons k v rest, h => by
    obtain ⟨_, hv, hrest⟩ := treeSnapO_fcons h
    simp only [noDeletedO, Bool.and_eq_true]
    exact ⟨treeSnapV_noDeleted v hv, treeSnapO_noDeleted rest hrest⟩
end

theorem treeSnapO_lookupF : (c : Fields) → (k : String) → (v : Val) →
    treeSnapO c = true → lookupF c k = some v → treeSnapV v = true
  | .nil, k, v, _, h => by simp [lookupF] at h
  | .fcons k₁ w rest, k, v, ht, h => by
    obtain ⟨_, hw, hrest⟩ := treeSnapO_fcons ht
    by_cases h₁ : k₁ = k
    · have : w = v := by simpa [lookupF, h₁] using h
      exact this ▸ hw
    · simp only [lookupF, if_neg h₁] at h
      exact treeSnapO_lookupF rest k v hrest h

theorem pass1_self : (pairs : Fields) → {rec : Val → Fields → Fields} → (cur : Fields) →
    nodupKeysL (keys pairs) = true →
    (∀ k v, lookupF pairs k = some v → lookupF cur k = some v) →
    (∀ k po, lookupF cur k = some (.obj po) → rec (.obj po) po = po) →
    pass1 rec cur pairs cur = cur
  | .nil, _, cur, _, _, _ => by simp [pass1]
  | .fcons k pv rest, rec, cur, hnd, H, Hrec => by
    obtain ⟨hk, hnd'⟩ := nodupKeysL_cons (by simpa [keys] using hnd)
    have hcur : lookupF cur k = some pv := H k pv (by simp [lookupF])
    have H' := lookupF_suffix_step k pv rest cur hk H
    simp only [pass1, hcur]
    cases pv with
    | str s => exact pass1_self rest cur hnd' H' Hrec
    | obj po =>
      show pass1 rec cur rest (setF cur k (.obj (rec (.obj po) po))) = cur
      rw [Hrec k po hcur, setF_lookup_self cur k (.obj po) hcur]
      exact pass1_self rest cur hnd' H' Hrec

theorem pass2_self : (pairs : Fields) → {rec : Val → Fields → Fields} → (cur : Fields) →
    nodupKeysL (keys pairs) = true →
    (∀ k v, lookupF pairs k = some v → lookupF cur k = some v) →
    treeSnapO cur = true →
    (∀ k po, lookupF cur k = some (.obj po) → rec (.obj po) po = po) →
    pass2 rec cur pairs cur = cur
  | .nil, _, cur, _, _, _, _ => by simp [pass2]
  | .fcons k cv rest, rec, cur, hnd, H, ht, Hrec => by
    obtain ⟨hk, hnd'⟩ := nodupKeysL_cons (by simpa [keys] using hnd)
    have hcur : lookupF cur k = some cv := H k cv (by simp [lookupF])
    have H' := lookupF_suffix_step k cv rest cur hk H
    have hnm : isDeletedMarker (lookupF cur k) = false := by
      rw [hcur]
      have := treeSnapO_lookupF cur k cv ht hcur
      cases cv with
      | str s =>
        simp only [treeSnapV, beq_iff_eq] at this
        simp [isDeletedMarker, this]
      | obj co => simp [isDeletedMarker]
    simp only [pass2]
    rw [if_neg (by simp [hnm])]
    cases cv with
    | str s =>
      have hs : s = "file" := by
        have := treeSnapO_lookupF cur k (.str s) ht hcur
        simpa [treeSnapV] using this
      subst hs
      show pass2 rec cur rest (setF cur k (.str "file")) = cur
      rw [setF_lookup_self cur k (.str "file") hcur]
      exact pass2_self rest cur hnd' H' ht Hrec
    | obj co =>
      have hjs : jsOr (lookupF cur k) = .obj co := by rw [hcur]; rfl
      show pass2 rec cur rest (setF cur k (.obj (rec (jsOr (lookupF cur k)) co))) = cur
      rw [hjs, Hrec k co hcur, setF_lookup_self cur k (.obj co) hcur]
      exact pass2_self rest cur hnd' H' ht Hrec

theorem markF_self : (fuel : Nat) → (c : Fields) → odepth c < fuel →
    treeSnapO c = true → markDeletedFilesF fuel (.obj c) c = c
  | 0, c, h, _ => absurd h (by omega)
  | fuel + 1, c, h, ht => by
    have Hrec : ∀ k po, lookupF c k = some (.obj po) →
        markDeletedFilesF fuel (.obj po) po = po := by
      intro k po hl
      have hdep : odepth po < fuel := by
        have := lookupF_depth c k _ hl
        simp only [vdepth] at this
        omega
      have htpo : treeSnapO po = true := by
        have := treeSnapO_lookupF c k _ ht hl
        simpa [treeSnapV] using this
      exact markF_self fuel po hdep htpo
    have hnd := treeSnapO_nodup c ht
    simp only [markDeletedFilesF, enumFields_obj]
    rw [pass1_self c c hnd (fun _ _ h => h) Hrec]
    exact pass2_self c c hnd (fun _ _ h => h) ht Hrec

/-- C5: merging the snapshot of the current tree with itself is the
identity (a snapshot of the current tree has only `"file"` leaves and
unique keys), so the merge contains no `"deleted"` markers and a second
application with the same current snapshot yields exactly the same
result. -/
theorem claim_C5_merge_idempotent (c : Fields) (h : treeSnapO c = true) :
    noDeletedO (markDeletedFiles (.obj c) c) = true ∧
    markDeletedFiles (.obj (markDeletedFiles (.obj c) c)) c =
      markDeletedFiles (.obj c) c := by
  have hm : markDeletedFiles (.obj c) c = c := by
    rw [markDeletedFiles]
    exact markF_self (odepth c + 1) c (by omega) h
  rw [hm]
  exact ⟨treeSnapO_noDeleted c h, hm⟩

/-- C5 witness at the snapshot `{a: "file", d: {b: "file"}}`. -/
theorem claim_C5_witness :
    noDeletedO (markDeletedFiles
      (.obj (.fcons "a" (.str "file") (.fcons "d" (.obj (.fcons "b" (.str "file") .nil)) .nil)))
      (.fcons "a" (.str "file") (.fcons "d" (.obj (.fcons "b" (.str "file") .nil)) .nil))) = true ∧
    markDeletedFiles
        (.obj (markDeletedFiles
          (.obj (.fcons "a" (.str "file") (.fcons "d" (.obj (.fcons "b" (.str "file") .nil)) .nil)))
          (.fcons "a" (.str "file") (.fcons "d" (.obj (.fcons "b" (.str "file") .nil)) .nil))))
        (.fcons "a" (.str "file") (.fcons "d" (.obj (.fcons "b" (.str "file") .nil)) .nil)) =
      markDeletedFiles
        (.obj (.fcons "a" (.str "file") (.fcons "d" (.obj (.fcons "b" (.str "file") .nil)) .nil)))
        (.fcons "a" (.str "file") (.fcons "d" (.obj (.fcons "b" (.str "file") .nil)) .nil)) :=
  claim_C5_merge_idempotent
    (.fcons "a" (.str "file") (.fcons "d" (.obj (.fcons "b" (.str "file") .nil)) .nil))
    (by decide)

/-- C10: the merge never drops or invents a key.  The key list of the
merge is exactly the union of the key lists of `previous` and `current`
(previous keys first, then the new current keys, in order), and every
nested entry present as an object on the current side is itself the merge
of the corresponding sub-snapshots, so the same union holds at every
nesting level by recursion. -/
theorem claim_C10_key_universe (p c : Fields)
    (hp : nodupKeysL (keys p) = true) (hc : nodupKeysL (keys c) = true) :
    (∀ key, key ∈ keys (markDeletedFiles (.obj p) c) ↔ key ∈ keys p ∨ key ∈ keys c) ∧
    (∀ key po co, lookupF p key = some (.obj po) → lookupF c key = some (.obj co) →
      lookupF (markDeletedFiles (.obj p) c) key =
        some (.obj (markDeletedFiles (.obj po) co))) ∧
    (∀ key co, lookupF p key = none → lookupF c key = some (.obj co) →
      lookupF (markDeletedFiles (.obj p) c) key =
        some (.obj (markDeletedFiles (.obj .nil) co))) := by
  refine ⟨?_, ?_, ?_⟩
  · intro key
    rw [markDeletedFiles_unfold, enumFields_obj]
    rw [pass2_keys c p _ hc, pass1_keys p c p (fun k hk => hk)]
    simp only [List.mem_append, List.mem_filter]
    by_cases hkp : key ∈ keys p
    · simp [hkp]
    · simp [hkp]
  · intro key po co hpk hck
    rw [markDeletedFiles_unfold, enumFields_obj]
    have h1 : lookupF (pass1 (markDeletedFilesF (odepth c)) c p p) key =
        some (.obj (markDeletedFilesF (odepth c) (.obj po) co)) :=
      pass1_lookupF_rec p c p key po co hp hpk hck
    have hdep : odepth co < odepth c := by
      have := lookupF_depth c key _ hck
      simp only [vdepth] at this
      omega
    rw [pass2_lookupF_rec c p _ key co hc hck (by rw [h1]; simp)]
    have hjs : jsOr (lookupF p key) = .obj po := by rw [hpk]; rfl
    rw [hjs, ← markDeletedFiles_eqF (odepth c) (.obj po) co hdep]
  · intro key co hpk hck
    rw [markDeletedFiles_unfold, enumFields_obj]
    have h1 : lookupF (pass1 (markDeletedFilesF (odepth c)) c p p) key = none := by
      rw [pass1_lookupF_none p c p key hpk]
      exact hpk
    have hdep : odepth co < odepth c := by
      have := lookupF_depth c key _ hck
      simp only [vdepth] at this
      omega
    rw [pass2_lookupF_rec c p _ key co hc hck (by rw [h1]; simp)]
    have hjs : jsOr (lookupF p key) = .obj .nil := by rw [hpk]; rfl
    rw [hjs, ← markDeletedFiles_eqF (odepth c) (.obj .nil) co hdep]

/-- C10 witness: at `previous = {a: "file"}`, `current = {b: {}}` the
merged key list is exactly the union and the nested entry `b` is the
merge of `{}` and `{}`. -/
theorem claim_C10_witness :
    ("a" ∈ keys (markDeletedFiles (.obj (.fcons "a" (.str "file") .nil))
        (.fcons "b" (.obj .nil) .nil)) ↔
      "a" ∈ keys (Fields.fcons "a" (.str "file") .nil) ∨
      "a" ∈ keys (Fields.fcons "b" (.obj .nil) .nil)) ∧
    lookupF (markDeletedFiles (.obj (.fcons "a" (.str "file") .nil))
        (.fcons "b" (.obj .nil) .nil)) "b" =
      some (.obj (markDeletedFiles (.obj .nil) .nil)) :=
  ⟨(claim_C10_key_universe (.fcons "a" (.str "file") .nil)
      (.fcons "b" (.obj .nil) .nil) rfl rfl).1 "a",
   (claim_C10_key_universe (.fcons "a" (.str "file") .nil)
      (.fcons "b" (.obj .nil) .nil) rfl rfl).2.2 "b" .nil rfl rfl⟩

/-!
Path-shape lemmas for C6: emitted paths are segment-structured, so a
whole-subtree deletion contributes exactly its root path.
-/

theorem string_ext {a b : String} (h : a.data = b.data) : a = b := by
  cases a
  cases b
  simp_all

theorem pathJoin_empty (k : String) : pathJoin "" k = k := by
  simp [pathJoin]

theorem pathJoin_data (b k : String) (hb : b ≠ "") :
    (pathJoin b k).data = b.data ++ '/' :: k.data := by
  simp [pathJoin, hb, String.data_append]

theorem pathJoin_ne_empty (b k : String) (hb : b ≠ "") : pathJoin b k ≠ "" := by
  intro h
  have h2 : (pathJoin b k).data = ("" : String).data := by rw [h]
  rw [pathJoin_data b k hb] at h2
  simp at h2

theorem goodKey_spec {k : String} (h : goodKey k = true) :
    k ≠ "" ∧ '/' ∉ k.data := by
  simp only [goodKey, Bool.and_eq_true, Bool.not_eq_true'] at h
  constructor
  · intro he
    rw [he] at h
    simp at h
  · have := h.2
    simpa using this

theorem slashfree_seg_eq : (a b : List Char) → {t₁ t₂ : List Char} →
    '/' ∉ a → '/' ∉ b → a ++ '/' :: t₁ = b ++ '/' :: t₂ → a = b
  | [], [], _, _, _, _, _ => rfl
  | [], c :: bs, t₁, t₂, _, hb, h => by
    simp only [List.nil_append, List.cons_append, List.cons.injEq] at h
    exact absurd (by rw [h.1]; exact List.mem_cons_self _ _) hb
  | c :: as, [], t₁, t₂, ha, _, h => by
    simp only [List.cons_append, List.nil_append, List.cons.injEq] at h
    exact absurd (by rw [← h.1]; exact List.mem_cons_self _ _) ha
  | c :: as, d :: bs, t₁, t₂, ha, hb, h => by
    simp only [List.cons_append, List.cons.injEq] at h
    have ha' : '/' ∉ as := fun hm => ha (List.mem_cons_of_mem _ hm)
    have hb' : '/' ∉ bs := fun hm => hb (List.mem_cons_of_mem _ hm)
    rw [h.1, slashfree_seg_eq as bs ha' hb' h.2]

mutual
theorem getDeletedEntry_shape : (k : String) → (v : Val) → (b : String) → (q : String) →
    b ≠ "" → q ∈ getDeletedEntry k v b → ∃ t : String, q = b ++ "/" ++ t
  | k, .str s, b, q, hb, h => by
    simp only [getDeletedEntry] at h
    by_cases hs : s = "deleted"
    · rw [if_pos hs] at h
      simp only [List.mem_singleton] at h
      refine ⟨k, ?_⟩
      rw [h]
      simp [pathJoin, hb]
    · rw [if_neg hs] at h
      simp at h
  | k, .obj sub, b, q, hb, h => by
    simp only [getDeletedEntry] at h
    obtain ⟨t, ht⟩ := getDeletedFiles_shape sub (pathJoin b k) q (pathJoin_ne_empty b k hb) h
    refine ⟨k ++ "/" ++ t, string_ext ?_⟩
    rw [ht]
    simp [pathJoin, hb, String.data_append]
theorem getDeletedFiles_shape : (s : Fields) → (b q : String) → b ≠ "" →
    q ∈ getDeletedFiles s b → ∃ t : String, q = b ++ "/" ++ t
  | .nil, b, q, _, h => by simp [getDeletedFiles] at h
  | .fcons k v rest, b, q, hb, h => by
    simp only [getDeletedFiles, List.mem_append] at h
    rcases h with h | h
    · exact getDeletedEntry_shape k v b q hb h
    · exact getDeletedFiles_shape rest b q hb h
end

theorem goodKeysL_iff : (l : List String) →
    (goodKeysL l = true ↔ ∀ k ∈ l, goodKey k = true)
  | [] => by simp [goodKeysL]
  | k :: ks => by
    simp only [goodKeysL, Bool.and_eq_true, goodKeysL_iff ks, List.forall_mem_cons]

theorem nodupKeysL_iff : (l : List String) → (nodupKeysL l = true ↔ l.Nodup)
  | [] => by simp [nodupKeysL]
  | k :: ks => by
    simp only [nodupKeysL, Bool.and_eq_true, Bool.not_eq_true', nodupKeysL_iff ks,
      List.nodup_cons]
    constructor
    · rintro ⟨h1, h2⟩
      exact ⟨not_mem_of_contains_eq_false h1, h2⟩
    · rintro ⟨h1, h2⟩
      refine ⟨?_, h2⟩
      simpa using h1

theorem extract_unique : (m : Fields) → (k : String) →
    goodKeysL (keys m) = true → nodupKeysL (keys m) = true → goodKey k = true →
    (lookupF m k = some (.str "deleted") ∨ lookupF m k = none) →
    ((lookupF m k = some (.str "deleted") → (getDeletedFiles m "").count k = 1) ∧
     (lookupF m k = none → (getDeletedFiles m "").count k = 0) ∧
     (∀ q ∈ getDeletedFiles m "", ¬∃ t : List Char, q.data = k.data ++ '/' :: t))
  | .nil, k, _, _, _, _ => by
    refine ⟨?_, ?_, ?_⟩
    · intro h
      simp [lookupF] at h
    · intro _
      simp [getDeletedFiles]
    · intro q hq
      simp [getDeletedFiles] at hq
  | .fcons k₁ v₁ rest, k, hg, hnd, hgk, hdisj => by
    obtain ⟨hk₁nd, hnd'⟩ := nodupKeysL_cons (by simpa [keys] using hnd)
    have hg2 : goodKey k₁ = true ∧ goodKeysL (keys rest) = true := by
      simpa [keys, goodKeysL, Bool.and_eq_true] using hg
    obtain ⟨hk1ne, hk1sl⟩ := goodKey_spec hg2.1
    obtain ⟨hkne, hksl⟩ := goodKey_spec hgk
    by_cases he : k₁ = k
    · subst he
      have hv : v₁ = .str "deleted" := by
        rcases hdisj with h | h
        · simpa [lookupF] using h
        · simp [lookupF] at h
      subst hv
      have hrest : lookupF rest k₁ = none := (lookupF_eq_none rest k₁).2 hk₁nd
      obtain ⟨ih1, ih2, ih3⟩ := extract_unique rest k₁ hg2.2 hnd' hgk (Or.inr hrest)
      have hcontrib : getDeletedFiles (.fcons k₁ (.str "deleted") rest) "" =
          k₁ :: getDeletedFiles rest "" := by
        simp [getDeletedFiles, getDeletedEntry, pathJoin]
      refine ⟨?_, ?_, ?_⟩
      · intro _
        rw [hcontrib]
        simp [List.count_cons, ih2 hrest]
      · intro h
        simp [lookupF] at h
      · intro q hq
        rw [hcontrib] at hq
        rcases List.mem_cons.mp hq with rfl | hq
        · rintro ⟨t, ht⟩
          have hlen := congrArg List.length ht
          simp at hlen
        · exact ih3 q hq
    · have htrans : lookupF (.fcons k₁ v₁ rest) k = lookupF rest k := by
        simp [lookupF, he]
      rw [htrans] at hdisj
      obtain ⟨ih1, ih2, ih3⟩ := extract_unique rest k hg2.2 hnd' hgk hdisj
      have hhead : ∀ q ∈ getDeletedEntry k₁ v₁ "", q ≠ k ∧
          ¬∃ t : List Char, q.data = k.data ++ '/' :: t := by
        intro q hq
        cases v₁ with
        | str s =>
          simp only [getDeletedEntry] at hq
          by_cases hs : s = "deleted"
          · rw [if_pos hs] at hq
            simp only [List.mem_singleton, pathJoin_empty] at hq
            subst hq
            constructor
            · exact fun hqq => he hqq
            · rintro ⟨t, ht⟩
              apply hk1sl
              rw [ht]
              exact List.mem_append_right _ (List.mem_cons_self _ _)
          · rw [if_neg hs] at hq
            simp at hq
        | obj sub =>
          simp only [getDeletedEntry, pathJoin_empty] at hq
          obtain ⟨t, ht⟩ := getDeletedFiles_shape sub k₁ q hk1ne hq
          subst ht
          have hqdata : (k₁ ++ "/" ++ t).data = k₁.data ++ '/' :: t.data := by
            simp [String.data_append]
          constructor
          · intro hqk
            apply hksl
            have hk : k.data = k₁.data ++ '/' :: t.data := by
              rw [← hqk, hqdata]
            rw [hk]
            exact List.mem_append_right _ (List.mem_cons_self _ _)
          · rintro ⟨t₂, ht₂⟩
            rw [hqdata] at ht₂
            exact he (string_ext (slashfree_seg_eq k₁.data k.data hk1sl hksl ht₂))
      have hsplit : getDeletedFiles (.fcons k₁ v₁ rest) "" =
          getDeletedEntry k₁ v₁ "" ++ getDeletedFiles rest "" := rfl
      refine ⟨?_, ?_, ?_⟩
      · intro h
        rw [hsplit, List.count_append]
        have hz : (getDeletedEntry k₁ v₁ "").count k = 0 := by
          rw [List.count_eq_zero]
          intro hin
          exact (hhead k hin).1 rfl
        rw [hz, ih1 (htrans ▸ h)]
      · intro h
        rw [hsplit, List.count_append]
        have hz : (getDeletedEntry k₁ v₁ "").count k = 0 := by
          rw [List.count_eq_zero]
          intro hin
          exact (hhead k hin).1 rfl
        rw [hz, ih2 (htrans ▸ h)]
      · intro q hq
        rw [hsplit] at hq
        rcases List.mem_append.mp hq with hq | hq
        · exact (hhead q hq).2
        · exact ih3 q hq

/-- C6: a key holding a nested snapshot in `previous` and absent from
`current` is mapped to the single marker `"deleted"` by the merge (its
descendants are not individually marked), and the extractor emits its
path exactly once, with no path descending below it.  Keys are required
to be directory-entry names (nonempty, slash-free) and unique per level,
as produced by directory listings. -/
theorem claim_C6_subtree_collapse (p c : Fields) (k : String) (sub : Fields)
    (hp : nodupKeysL (keys p) = true) (hc : nodupKeysL (keys c) = true)
    (hgp : goodKeysL (keys p) = true) (hgc : goodKeysL (keys c) = true)
    (hlk : lookupF p k = some (.obj sub)) (hck : lookupF c k = none) :
    lookupF (markDeletedFiles (.obj p) c) k = some (.str "deleted") ∧
    (getDeletedFiles (markDeletedFiles (.obj p) c) "").count k = 1 ∧
    ∀ q ∈ getDeletedFiles (markDeletedFiles (.obj p) c) "",
      ¬∃ t : List Char, q.data = k.data ++ '/' :: t := by
  have hdel : lookupF (markDeletedFiles (.obj p) c) k = some (.str "deleted") := by
    rw [markDeletedFiles_unfold, enumFields_obj]
    rw [pass2_lookupF_none c p _ k hck]
    exact pass1_lookupF_deleted p c p k (.obj sub) hp hlk hck
  have hkeys : keys (markDeletedFiles (.obj p) c) =
      keys p ++ (keys c).filter (fun x => !((keys p).contains x)) := by
    rw [markDeletedFiles_unfold, enumFields_obj]
    rw [pass2_keys c p _ hc, pass1_keys p c p (fun key hk => hk)]
  have hnodup_m : nodupKeysL (keys (markDeletedFiles (.obj p) c)) = true := by
    rw [nodupKeysL_iff, hkeys, List.nodup_append]
    refine ⟨(nodupKeysL_iff _).1 hp, List.Nodup.filter _ ((nodupKeysL_iff _).1 hc), ?_⟩
    intro a ha hb
    rw [List.mem_filter] at hb
    have := hb.2
    simp only [Bool.not_eq_true'] at this
    exact (not_mem_of_contains_eq_false this) ha
  have hgood_m : goodKeysL (keys (markDeletedFiles (.obj p) c)) = true := by
    rw [goodKeysL_iff]
    intro key hk
    rw [hkeys, List.mem_append] at hk
    rcases hk with hk | hk
    · exact (goodKeysL_iff _).1 hgp key hk
    · rw [List.mem_filter] at hk
      exact (goodKeysL_iff _).1 hgc key hk.1
  have hgk : goodKey k = true :=
    (goodKeysL_iff _).1 hgp k (mem_keys_of_lookupF p k _ hlk)
  obtain ⟨h1, _, h3⟩ := extract_unique (markDeletedFiles (.obj p) c) k
    hgood_m hnodup_m hgk (Or.inl hdel)
  exact ⟨hdel, h1 hdel, h3⟩

/-- C6 witness: previous `{d: {x: "file", y: "file"}}`, current `{}`. -/
theorem claim_C6_witness :
    lookupF (markDeletedFiles
      (.obj (.fcons "d" (.obj (.fcons "x" (.str "file") (.fcons "y" (.str "file") .nil))) .nil))
      .nil) "d" = some (.str "deleted") ∧
    (getDeletedFiles (markDeletedFiles
      (.obj (.fcons "d" (.obj (.fcons "x" (.str "file") (.fcons "y" (.str "file") .nil))) .nil))
      .nil) "").count "d" = 1 := by
  have h := claim_C6_subtree_collapse
    (.fcons "d" (.obj (.fcons "x" (.str "file") (.fcons "y" (.str "file") .nil))) .nil)
    .nil "d" (.fcons "x" (.str "file") (.fcons "y" (.str "file") .nil))
    rfl rfl (by decide) rfl rfl rfl
  exact ⟨h.1, h.2.1⟩
